import Mathlib

/-!
# Verification of the elo-matchmaking simulation

A shallow embedding of the core of `matchmaking/models.py` and
`matchmaking/server.py`, with theorems checking the natural-language
specification against the code.

Modelling conventions:
* Python `float` rating arithmetic is modelled over exact reals (`ℝ`) for the
  rating engine, and over `ℚ`/`ℤ` where the code only compares or adds values.
* Mutable `Player` objects are modelled either as records (where a function is
  pure on one player) or as maps `name → value` (where a method mutates many
  shared players); Python object identity corresponds to the `name` key, and
  the hypotheses of the theorems record that names are distinct, as the
  simulation creates distinct player objects.
* Randomness (`random.randint`, `random.choices`) is modelled by explicit
  direction/oracle parameters, so theorems quantify over all random outcomes.
* Fallible Python code (`IndexError`, `ZeroDivisionError`) is modelled with
  `Except`/`Option`.
-/

/-- `GameOutcome` enum from `models.py`. -/
inductive GameOutcome where
  | P1_WIN
  | P2_WIN
  | DRAW
  deriving DecidableEq, Repr

namespace GameOutcome

/-- The outcome inversion used by the spec's antisymmetry property:
`invert(WIN)=LOSS`, `invert(LOSS)=WIN`, `invert(DRAW)=DRAW`. -/
def invert : GameOutcome → GameOutcome
  | .P1_WIN => .P2_WIN
  | .P2_WIN => .P1_WIN
  | .DRAW => .DRAW

end GameOutcome

/-! ## Rating engine (`Player.rating`, `Player.get_elo_delta`) -/

/-- `Player.rating` property: `10 ** (self.elo / 400)` over exact reals. -/
noncomputable def rating (elo : ℝ) : ℝ := (10 : ℝ) ^ (elo / 400)

/-- `Player.get_elo_delta(self, other, result, k_factor)` from `models.py`:
`expected_1 = rating_1 / (rating_1 + rating_2)`;
`score_1 = 0.5` on a draw, `1` on `P1_WIN`, `0` on `P2_WIN`;
returns `k_factor * (score_1 - expected_1)`. -/
noncomputable def get_elo_delta (elo₁ elo₂ : ℝ) (result : GameOutcome) (k_factor : ℝ) : ℝ :=
  let rating_1 := rating elo₁
  let rating_2 := rating elo₂
  let expected_1 := rating_1 / (rating_1 + rating_2)
  let score_1 : ℝ :=
    if result = GameOutcome.DRAW then 0.5
    else if result = GameOutcome.P1_WIN then 1 else 0
  k_factor * (score_1 - expected_1)

theorem rating_pos (elo : ℝ) : 0 < rating elo :=
  Real.rpow_pos_of_pos (by norm_num) _

/-! ## Nudge (`Player.nudge`) -/

/-- The mutable `Player` fields touched (or explicitly untouched) by
`Player.nudge` in `models.py`. -/
structure NPlayer where
  true_rating : ℤ
  elo : ℚ
  god : Bool
  deriving DecidableEq, Repr

/-- `Player.nudge(self, nudge)` from `models.py`:
`direction = 0 if self.god else random.randint(0, 1)`;
if `direction` then `true_rating -= nudge` else `true_rating += nudge`;
finally `true_rating = max(0, true_rating)`.  The random draw is the
explicit `direction` argument. -/
def NPlayer.nudge (p : NPlayer) (direction : Bool) (m : ℤ) : NPlayer :=
  let dir := if p.god then false else direction
  let tr := if dir then p.true_rating - m else p.true_rating + m
  { p with true_rating := max 0 tr }

/-- Any finite sequence of nudge applications, each with its own random
direction and magnitude. -/
def NPlayer.nudgeAll (p : NPlayer) (steps : List (Bool × ℤ)) : NPlayer :=
  steps.foldl (fun q s => q.nudge s.1 s.2) p

/-- C2: for all players `a, b` and every outcome `o`, the pairwise ELO delta
is antisymmetric: `get_elo_delta a b o = -get_elo_delta b a (invert o)`, with
`invert(WIN)=LOSS`, `invert(LOSS)=WIN`, `invert(DRAW)=DRAW`, over exact real
arithmetic on the ratings. -/
theorem get_elo_delta_antisymm (elo₁ elo₂ k : ℝ) (o : GameOutcome) :
    get_elo_delta elo₁ elo₂ o k = -get_elo_delta elo₂ elo₁ o.invert k := by
  have h₁ := rating_pos elo₁
  have h₂ := rating_pos elo₂
  have hsum : rating elo₁ + rating elo₂ ≠ 0 := by positivity
  have key : rating elo₂ / (rating elo₂ + rating elo₁)
      = 1 - rating elo₁ / (rating elo₁ + rating elo₂) := by
    rw [add_comm (rating elo₂), eq_sub_iff_add_eq, div_add_div_same,
      add_comm (rating elo₂) (rating elo₁), div_self hsum]
  cases o <;>
    simp only [get_elo_delta, GameOutcome.invert, if_true, if_false, reduceCtorEq,
      reduceIte] <;>
    rw [key] <;> ring

/-- C7: for every player with non-negative `true_rating` and any finite
sequence of nudge applications (any directions, any magnitudes), the
resulting `true_rating` is never negative, and `elo` is untouched by the
operation. -/
theorem nudge_true_rating_nonneg (p : NPlayer) (h : 0 ≤ p.true_rating)
    (steps : List (Bool × ℤ)) :
    0 ≤ (p.nudgeAll steps).true_rating ∧ (p.nudgeAll steps).elo = p.elo := by
  induction steps generalizing p with
  | nil => exact ⟨h, rfl⟩
  | cons s rest ih =>
    have hstep : 0 ≤ (p.nudge s.1 s.2).true_rating := le_max_left 0 _
    have helo : (p.nudge s.1 s.2).elo = p.elo := rfl
    have hfold : p.nudgeAll (s :: rest) = (p.nudge s.1 s.2).nudgeAll rest := rfl
    rw [hfold]
    exact ⟨(ih _ hstep).1, (ih _ hstep).2.trans helo⟩

/-- Witness for C7 at a concrete player and nudge sequence. -/
theorem nudge_true_rating_nonneg_witness :
    0 ≤ (⟨3, 100, false⟩ : NPlayer).true_rating ∧
    (0 ≤ ((⟨3, 100, false⟩ : NPlayer).nudgeAll [(true, 5), (false, 2)]).true_rating ∧
     ((⟨3, 100, false⟩ : NPlayer).nudgeAll [(true, 5), (false, 2)]).elo
       = (⟨3, 100, false⟩ : NPlayer).elo) :=
  ⟨by decide, nudge_true_rating_nonneg ⟨3, 100, false⟩ (by decide) [(true, 5), (false, 2)]⟩

/-! ## Game model for the rating engine (`Game.update_elo`)

A `Game` holds a list of teams; each `Team` holds its players and the integer
`score` assigned by `compute_score`.  Mutable `Player` objects are identified
by their `name` key (`Player.__hash__` hashes the name; the simulation creates
players with distinct names), so the mutable `win`/`lose`/`elo` fields live in
maps `name → value` and a team is its roster of names plus its score. -/

structure RTeam where
  names : List ℕ
  score : ℤ
  deriving DecidableEq, Repr

/-- `Team.compare(self, other)` from `models.py`: `P1_WIN` if `self.score >
other.score`, `P2_WIN` if `self.score < other.score`, else `DRAW`. -/
def RTeam.compare (t₁ t₂ : RTeam) : GameOutcome :=
  if t₁.score > t₂.score then .P1_WIN
  else if t₁.score < t₂.score then .P2_WIN
  else .DRAW

/-- `Game.players()` generator: every `(team, player)` pair, teams in order,
players within their team. -/
def gamePairs (teams : List RTeam) : List (RTeam × ℕ) :=
  teams.flatMap fun t => t.names.map fun n => (t, n)

/-- `Game.players(ignore_team=ignore)`: the same generator skipping the teams
equal to `ignore` (Python compares by object identity; with `Nodup` teams this
is value equality). -/
def gamePairsExcept (teams : List RTeam) (ignore : RTeam) : List (RTeam × ℕ) :=
  (teams.filter fun t => t ≠ ignore).flatMap fun t => t.names.map fun n => (t, n)

/-- All player names taking part in a game. -/
def gameNames (teams : List RTeam) : List ℕ :=
  teams.flatMap fun t => t.names

/-- The win/lose counter events fired by the double loop of
`Game.update_elo`: for every `(team, player)` and every `(other_team,
other_player)` of a different team, the outcome `team.compare(other_team)` is
recorded against `player` (so once per opposing **player**). -/
def counterEvents (teams : List RTeam) : List (ℕ × GameOutcome) :=
  (gamePairs teams).flatMap fun tp =>
    (gamePairsExcept teams tp.1).map fun oq => (tp.2, tp.1.compare oq.1)

/-- Replaying the events on the `win`/`lose` counter maps:
`player.add_win()` on `P1_WIN`, `player.add_lose()` on `P2_WIN`, nothing on a
draw. -/
def applyEvents (evs : List (ℕ × GameOutcome)) (wl : (ℕ → ℕ) × (ℕ → ℕ)) :
    (ℕ → ℕ) × (ℕ → ℕ) :=
  evs.foldl
    (fun wl e =>
      match e.2 with
      | .P1_WIN => (Function.update wl.1 e.1 (wl.1 e.1 + 1), wl.2)
      | .P2_WIN => (wl.1, Function.update wl.2 e.1 (wl.2 e.1 + 1))
      | .DRAW => wl)
    wl

/-- The effect of `Game.update_elo` on the win/lose counters. -/
def update_elo_counters (teams : List RTeam) (wl : (ℕ → ℕ) × (ℕ → ℕ)) :
    (ℕ → ℕ) × (ℕ → ℕ) :=
  applyEvents (counterEvents teams) wl

theorem countP_flatMap_eq_sum {α β : Type} (l : List α) (f : α → List β) (p : β → Bool) :
    ((l.flatMap f).countP p) = (l.map fun a => (f a).countP p).sum := by
  induction l with
  | nil => simp
  | cons a rest ih => simp [List.flatMap_cons, List.countP_append, ih]

theorem applyEvents_fst (evs : List (ℕ × GameOutcome)) (wl : (ℕ → ℕ) × (ℕ → ℕ))
    (n : ℕ) :
    (applyEvents evs wl).1 n
      = wl.1 n + evs.countP fun e => e.1 == n && e.2 == GameOutcome.P1_WIN := by
  induction evs generalizing wl with
  | nil => simp [applyEvents]
  | cons e rest ih =>
    have hstep : applyEvents (e :: rest) wl
        = applyEvents rest
            (match e.2 with
             | .P1_WIN => (Function.update wl.1 e.1 (wl.1 e.1 + 1), wl.2)
             | .P2_WIN => (wl.1, Function.update wl.2 e.1 (wl.2 e.1 + 1))
             | .DRAW => wl) := rfl
    rw [hstep, List.countP_cons]
    rcases e with ⟨m, o⟩
    cases o <;> simp only [ih] <;> by_cases hm : m = n <;>
      simp [Function.update, hm] <;> omega

theorem applyEvents_snd (evs : List (ℕ × GameOutcome)) (wl : (ℕ → ℕ) × (ℕ → ℕ))
    (n : ℕ) :
    (applyEvents evs wl).2 n
      = wl.2 n + evs.countP fun e => e.1 == n && e.2 == GameOutcome.P2_WIN := by
  induction evs generalizing wl with
  | nil => simp [applyEvents]
  | cons e rest ih =>
    have hstep : applyEvents (e :: rest) wl
        = applyEvents rest
            (match e.2 with
             | .P1_WIN => (Function.update wl.1 e.1 (wl.1 e.1 + 1), wl.2)
             | .P2_WIN => (wl.1, Function.update wl.2 e.1 (wl.2 e.1 + 1))
             | .DRAW => wl) := rfl
    rw [hstep, List.countP_cons]
    rcases e with ⟨m, o⟩
    cases o <;> simp only [ih] <;> by_cases hm : m = n <;>
      simp [Function.update, hm] <;> omega

/-- Number of `P1_WIN`-style events the inner loop of `update_elo` fires for
a fixed `(team, player)` pair and a fixed outcome `o`. -/
def outcomeCount (teams : List RTeam) (t : RTeam) (o : GameOutcome) : ℕ :=
  (gamePairsExcept teams t).countP fun oq => t.compare oq.1 == o

theorem inner_countP (u : RTeam) (teams : List RTeam) (names : List ℕ)
    (n : ℕ) (o : GameOutcome) :
    ((names.map fun m => (u, m)).flatMap fun tp =>
        (gamePairsExcept teams tp.1).map fun oq => (tp.2, tp.1.compare oq.1)).countP
        (fun e => e.1 == n && e.2 == o)
      = names.count n * outcomeCount teams u o := by
  induction names with
  | nil => simp
  | cons m rest ih =>
    rw [List.map_cons, List.flatMap_cons, List.countP_append, ih, List.count_cons]
    by_cases hm : m = n
    · subst hm
      have hmap : ((gamePairsExcept teams u).map fun oq => (m, u.compare oq.1)).countP
          (fun e => e.1 == m && e.2 == o) = outcomeCount teams u o := by
        rw [List.countP_map, outcomeCount]
        congr 1
        funext oq
        simp
      rw [hmap]
      simp only [beq_self_eq_true]
      rw [if_pos trivial]
      ring
    · have : ((gamePairsExcept teams u).map fun oq => (m, u.compare oq.1)).countP
          (fun e => e.1 == n && e.2 == o) = 0 := by
        rw [List.countP_map]
        have : ((fun e : ℕ × GameOutcome => e.1 == n && e.2 == o) ∘
            fun oq : RTeam × ℕ => (m, u.compare oq.1)) = fun _ => false := by
          funext oq
          simp [hm]
        rw [this]
        simp [List.countP_false]
      simp [this, hm]

theorem countP_counterEvents_aux (outer teams : List RTeam) (n : ℕ) (o : GameOutcome) :
    ((outer.flatMap fun t => t.names.map fun m => (t, m)).flatMap fun tp =>
        (gamePairsExcept teams tp.1).map fun oq => (tp.2, tp.1.compare oq.1)).countP
        (fun e => e.1 == n && e.2 == o)
      = (outer.map fun u => u.names.count n * outcomeCount teams u o).sum := by
  induction outer with
  | nil => simp
  | cons u rest ih =>
    rw [List.flatMap_cons, List.flatMap_append, List.countP_append, inner_countP, ih]
    simp only [List.map_cons, List.sum_cons]

theorem countP_counterEvents (teams : List RTeam) (n : ℕ) (o : GameOutcome) :
    (counterEvents teams).countP (fun e => e.1 == n && e.2 == o)
      = (teams.map fun u => u.names.count n * outcomeCount teams u o).sum := by
  rw [counterEvents, gamePairs]
  exact countP_counterEvents_aux teams teams n o

theorem sum_count_mul_of_nodup (teams : List RTeam) (W : RTeam → ℕ) (n : ℕ)
    (hnd : (gameNames teams).Nodup) (t : RTeam) (ht : t ∈ teams) (hn : n ∈ t.names) :
    (teams.map fun u => u.names.count n * W u).sum = W t := by
  induction teams with
  | nil => cases ht
  | cons u rest ih =>
    have hsplit : gameNames (u :: rest) = u.names ++ gameNames rest := by
      simp [gameNames, List.flatMap_cons]
    rw [hsplit] at hnd
    obtain ⟨hu, hrest, hdisj⟩ := List.nodup_append.mp hnd
    simp only [List.map_cons, List.sum_cons]
    by_cases hmem : n ∈ u.names
    · have htu : t = u := by
        rcases List.mem_cons.mp ht with h | h
        · exact h
        · exfalso
          have : n ∈ gameNames rest := by
            simp only [gameNames, List.mem_flatMap]
            exact ⟨t, h, hn⟩
          exact hdisj hmem this
      subst htu
      have hone : t.names.count n = 1 := List.count_eq_one_of_mem hu hmem
      have hzero : (rest.map fun u => u.names.count n * W u).sum = 0 := by
        apply List.sum_eq_zero
        intro x hx
        obtain ⟨v, hv, rfl⟩ := List.mem_map.mp hx
        have : n ∉ v.names := by
          intro hcontra
          exact hdisj hmem (by simp only [gameNames, List.mem_flatMap]; exact ⟨v, hv, hcontra⟩)
        rw [List.count_eq_zero_of_not_mem this, Nat.zero_mul]
      rw [hone, hzero, Nat.one_mul, Nat.add_zero]
    · have htrest : t ∈ rest := by
        rcases List.mem_cons.mp ht with h | h
        · exact absurd (h ▸ hn) hmem
        · exact h
      rw [List.count_eq_zero_of_not_mem hmem, Nat.zero_mul, Nat.zero_add]
      exact ih hrest htrest

theorem compare_eq_P1_WIN (t u : RTeam) :
    t.compare u = GameOutcome.P1_WIN ↔ u.score < t.score := by
  rw [RTeam.compare]
  split_ifs with h₁ h₂ <;> simp_all

theorem compare_eq_P2_WIN (t u : RTeam) :
    t.compare u = GameOutcome.P2_WIN ↔ t.score < u.score := by
  rw [RTeam.compare]
  split_ifs with h₁ h₂ <;> simp_all
  omega

theorem outcomeCount_eq_sum (teams : List RTeam) (t : RTeam) (o : GameOutcome) :
    outcomeCount teams t o
      = ((teams.filter fun u => u ≠ t).map fun u =>
          if t.compare u = o then u.names.length else 0).sum := by
  rw [outcomeCount, gamePairsExcept, countP_flatMap_eq_sum]
  congr 1
  apply List.map_congr_left
  intro u _
  rw [List.countP_map]
  by_cases h : t.compare u = o
  · simp [h, Function.comp]
  · simp [h, Function.comp]

/-- C1 (amended): in `Game.update_elo` the win/loss counters increment once
per opposing **player** comparison, not once per opposing team: after the
update, a player's win counter grew by the total number of players on
opposing teams with a strictly lower score, and the loss counter by the total
number of players on opposing teams with a strictly higher score (draws add
nothing), so the growth scales with `teamSize`. -/
theorem update_elo_counters_per_opposing_player (teams : List RTeam)
    (win lose : ℕ → ℕ) (hnd : (gameNames teams).Nodup)
    (t : RTeam) (ht : t ∈ teams) (n : ℕ) (hn : n ∈ t.names) :
    (update_elo_counters teams (win, lose)).1 n
      = win n + ((teams.filter fun u => u ≠ t).map fun u =>
          if u.score < t.score then u.names.length else 0).sum ∧
    (update_elo_counters teams (win, lose)).2 n
      = lose n + ((teams.filter fun u => u ≠ t).map fun u =>
          if t.score < u.score then u.names.length else 0).sum := by
  constructor
  · rw [update_elo_counters, applyEvents_fst, countP_counterEvents,
      sum_count_mul_of_nodup teams _ n hnd t ht hn, outcomeCount_eq_sum]
    congr 1
    refine congrArg List.sum (List.map_congr_left ?_)
    intro u _
    by_cases h : u.score < t.score
    · rw [if_pos ((compare_eq_P1_WIN t u).mpr h), if_pos h]
    · rw [if_neg (fun hc => h ((compare_eq_P1_WIN t u).mp hc)), if_neg h]
  · rw [update_elo_counters, applyEvents_snd, countP_counterEvents,
      sum_count_mul_of_nodup teams _ n hnd t ht hn, outcomeCount_eq_sum]
    congr 1
    refine congrArg List.sum (List.map_congr_left ?_)
    intro u _
    by_cases h : t.score < u.score
    · rw [if_pos ((compare_eq_P2_WIN t u).mpr h), if_pos h]
    · rw [if_neg (fun hc => h ((compare_eq_P2_WIN t u).mp hc)), if_neg h]

/-- Witness for the amended C1 at a concrete two-teams-of-two game. -/
theorem update_elo_counters_per_opposing_player_witness :
    (gameNames [⟨[0, 1], 1⟩, ⟨[2, 3], 0⟩]).Nodup ∧
    (⟨[0, 1], 1⟩ : RTeam) ∈ ([⟨[0, 1], 1⟩, ⟨[2, 3], 0⟩] : List RTeam) ∧
    0 ∈ [0, 1] ∧
    ((update_elo_counters [⟨[0, 1], 1⟩, ⟨[2, 3], 0⟩] ((fun _ => 0), fun _ => 0)).1 0
        = 0 + ((([⟨[0, 1], 1⟩, ⟨[2, 3], 0⟩] : List RTeam).filter
            fun u => u ≠ ⟨[0, 1], 1⟩).map fun u =>
              if u.score < (1 : ℤ) then u.names.length else 0).sum ∧
     (update_elo_counters [⟨[0, 1], 1⟩, ⟨[2, 3], 0⟩] ((fun _ => 0), fun _ => 0)).2 0
        = 0 + ((([⟨[0, 1], 1⟩, ⟨[2, 3], 0⟩] : List RTeam).filter
            fun u => u ≠ ⟨[0, 1], 1⟩).map fun u =>
              if (1 : ℤ) < u.score then u.names.length else 0).sum) :=
  ⟨by decide, by decide, by decide,
    update_elo_counters_per_opposing_player [⟨[0, 1], 1⟩, ⟨[2, 3], 0⟩]
      (fun _ => 0) (fun _ => 0) (by decide) ⟨[0, 1], 1⟩ (by decide) 0 (by decide)⟩

/-- C1 counterexample: in a game of two teams of two players with scores `1`
and `0`, the winning team's player `0` ends with win counter `2` although its
team outscored exactly `1` opposing team, so the counter does **not**
increment exactly once per opposing-team comparison. -/
theorem update_elo_counters_not_once_per_team :
    (update_elo_counters [⟨[0, 1], 1⟩, ⟨[2, 3], 0⟩] ((fun _ => 0), fun _ => 0)).1 0 = 2 ∧
    (([⟨[0, 1], 1⟩, ⟨[2, 3], 0⟩] : List RTeam).filter fun u =>
        u ≠ ⟨[0, 1], 1⟩ ∧ u.score < (1 : ℤ)).length = 1 ∧
    (2 : ℕ) ≠ 0 + 1 := by
  refine ⟨?_, by decide, by decide⟩
  decide

/-! ## `Game.update_elo`: elo-update phase

The first loop of `update_elo` only reads `player._elo` (through
`get_elo_delta`) and fills the `delta` dict; no elo is written there.  The
second loop then walks `delta.items()` and writes each player's elo once.
With distinct player names, the dict keyed by `Player` (hashed by name) has
one entry per `(team, player)` pair of the game, in first-insertion order,
which is the `gamePairs` order. -/

/-- The `delta` dictionary built by the first loop of `Game.update_elo`:
for each `(team, player)` pair, the list of
`player.get_elo_delta(other_player, team.compare(other_team))` over all
opposing `(other_team, other_player)` pairs, all read from the same elo map. -/
noncomputable def deltaItems (teams : List RTeam) (elo : ℕ → ℝ) (k : ℝ) :
    List (ℕ × List ℝ) :=
  (gamePairs teams).map fun tp =>
    (tp.2, (gamePairsExcept teams tp.1).map fun oq =>
      get_elo_delta (elo tp.2) (elo oq.2) (tp.1.compare oq.1) k)

/-- The full `Game.update_elo` effect on the elo map: build `delta` from the
current elo values, then for each entry set
`player.elo = player.elo + sum(deltas) / len(deltas)`. -/
noncomputable def update_elo (teams : List RTeam) (elo : ℕ → ℝ) (k : ℝ) : ℕ → ℝ :=
  (deltaItems teams elo k).foldl
    (fun st item => Function.update st item.1 (st item.1 + item.2.sum / item.2.length))
    elo

theorem foldl_update_not_mem {β : Type} (items : List (ℕ × β)) (init : ℕ → ℝ)
    (f : ℝ → β → ℝ) (n : ℕ) (hn : n ∉ items.map Prod.fst) :
    items.foldl (fun st it => Function.update st it.1 (f (st it.1) it.2)) init n
      = init n := by
  induction items generalizing init with
  | nil => rfl
  | cons it rest ih =>
    simp only [List.map_cons, List.mem_cons] at hn
    push_neg at hn
    rw [List.foldl_cons, ih _ hn.2, Function.update_noteq hn.1]

theorem foldl_update_of_nodup {β : Type} (items : List (ℕ × β))
    (hnd : (items.map Prod.fst).Nodup) (init : ℕ → ℝ) (f : ℝ → β → ℝ)
    (n : ℕ) (b : β) (hmem : (n, b) ∈ items) :
    items.foldl (fun st it => Function.update st it.1 (f (st it.1) it.2)) init n
      = f (init n) b := by
  induction items generalizing init with
  | nil => cases hmem
  | cons it rest ih =>
    rcases it with ⟨m, c⟩
    simp only [List.map_cons, List.nodup_cons] at hnd
    rw [List.foldl_cons]
    rcases List.mem_cons.mp hmem with heq | hrest
    · injection heq with h1 h2
      subst h1
      subst h2
      rw [foldl_update_not_mem _ _ _ _ hnd.1, Function.update_same]
    · have hne : m ≠ n := by
        intro hcontra
        subst hcontra
        exact hnd.1 (List.mem_map.mpr ⟨(m, b), hrest, rfl⟩)
      rw [ih hnd.2 _ hrest, Function.update_noteq (Ne.symm hne)]

theorem gamePairs_map_snd (teams : List RTeam) :
    (gamePairs teams).map Prod.snd = gameNames teams := by
  rw [gamePairs, gameNames]
  induction teams with
  | nil => rfl
  | cons t rest ih =>
    rw [List.flatMap_cons, List.flatMap_cons, List.map_append, ih, List.map_map]
    congr 1
    simp

theorem deltaItems_keys (teams : List RTeam) (elo : ℕ → ℝ) (k : ℝ) :
    (deltaItems teams elo k).map Prod.fst = gameNames teams := by
  have h1 : (deltaItems teams elo k).map Prod.fst = (gamePairs teams).map Prod.snd := by
    rw [deltaItems, List.map_map]
    apply List.map_congr_left
    intro tp _
    rfl
  rw [h1, gamePairs_map_snd]

/-- C10: within one `Game.update_elo` call every pairwise delta is computed
from the pre-update elo map: the deltas for all players are collected first,
and only then is any elo mutated, so each player's final elo is exactly its
initial elo plus the average of the pairwise deltas evaluated entirely at the
initial elo values, whatever order the players are rated in. -/
theorem update_elo_uses_pre_state (teams : List RTeam) (elo₀ : ℕ → ℝ) (k : ℝ)
    (hnd : (gameNames teams).Nodup) (t : RTeam) (ht : t ∈ teams) (n : ℕ)
    (hn : n ∈ t.names) :
    update_elo teams elo₀ k n
      = elo₀ n +
        ((gamePairsExcept teams t).map fun oq =>
          get_elo_delta (elo₀ n) (elo₀ oq.2) (t.compare oq.1) k).sum /
        ((gamePairsExcept teams t).map fun oq =>
          get_elo_delta (elo₀ n) (elo₀ oq.2) (t.compare oq.1) k).length := by
  have hkeys : (deltaItems teams elo₀ k).map Prod.fst = gameNames teams :=
    deltaItems_keys teams elo₀ k
  have hmem : (n, (gamePairsExcept teams t).map fun oq =>
      get_elo_delta (elo₀ n) (elo₀ oq.2) (t.compare oq.1) k) ∈ deltaItems teams elo₀ k := by
    rw [deltaItems]
    refine List.mem_map.mpr ⟨(t, n), ?_, rfl⟩
    rw [gamePairs]
    exact List.mem_flatMap.mpr ⟨t, ht, List.mem_map.mpr ⟨n, hn, rfl⟩⟩
  exact foldl_update_of_nodup _ (hkeys ▸ hnd) elo₀
    (fun x ds => x + ds.sum / ds.length) n _ hmem

/-- Witness for C10 at a concrete 1-vs-1 game with elos 1000 and 1200. -/
theorem update_elo_uses_pre_state_witness :
    (gameNames [⟨[0], 1⟩, ⟨[1], 0⟩]).Nodup ∧
    (⟨[0], 1⟩ : RTeam) ∈ ([⟨[0], 1⟩, ⟨[1], 0⟩] : List RTeam) ∧
    0 ∈ [0] ∧
    update_elo [⟨[0], 1⟩, ⟨[1], 0⟩] (fun m => if m = 0 then 1000 else 1200) 20 0
      = (fun m : ℕ => if m = 0 then (1000 : ℝ) else 1200) 0 +
        ((gamePairsExcept [⟨[0], 1⟩, ⟨[1], 0⟩] ⟨[0], 1⟩).map fun oq =>
          get_elo_delta ((fun m : ℕ => if m = 0 then (1000 : ℝ) else 1200) 0)
            ((fun m : ℕ => if m = 0 then (1000 : ℝ) else 1200) oq.2)
            ((⟨[0], 1⟩ : RTeam).compare oq.1) 20).sum /
        ((gamePairsExcept [⟨[0], 1⟩, ⟨[1], 0⟩] ⟨[0], 1⟩).map fun oq =>
          get_elo_delta ((fun m : ℕ => if m = 0 then (1000 : ℝ) else 1200) 0)
            ((fun m : ℕ => if m = 0 then (1000 : ℝ) else 1200) oq.2)
            ((⟨[0], 1⟩ : RTeam).compare oq.1) 20).length :=
  ⟨by decide, by decide, by decide,
    update_elo_uses_pre_state [⟨[0], 1⟩, ⟨[1], 0⟩]
      (fun m => if m = 0 then 1000 else 1200) 20 (by decide) ⟨[0], 1⟩ (by decide)
      0 (by decide)⟩

/-! ## Server-side model (`server.py`)

`PlayerStatus` and `PlayerStore` from `server.py`.  The store is a Python
dict `Player → status` that preserves insertion order, modelled as an
association list; the mutable `Player` object fields used by the server are
carried inline.  Timestamps (`datetime.now()` / `perf_counter()`) are
abstract clock readings, modelled as naturals supplied by the caller. -/

inductive PlayerStatus where
  | IN_GAME
  | WAITING
  deriving DecidableEq, Repr

/-- The `Player` fields read and written by `server.py` (elo is only compared
and averaged there, so `ℚ` suffices for the server model). -/
structure Player where
  name : ℕ
  elo : ℚ
  last_played : ℕ
  last_played_ns : ℕ
  true_rating : ℤ
  god : Bool
  deriving DecidableEq, Repr

abbrev PlayerStore := List (Player × PlayerStatus)

/-- `PlayerStore.get(wanted_status)`: the players whose status matches, in
store (insertion) order. -/
def PlayerStore.get (store : PlayerStore) (wanted : PlayerStatus) : List Player :=
  (store.filter fun e => e.2 = wanted).map Prod.fst

/-- `PlayerStore.set(players, status)` from `server.py`: for each given
player, set its status to `status` **and** stamp `last_played` /
`last_played_ns` with the current clock readings — unconditionally, whatever
`status` is.  Players are identified by name (Python identity). -/
def PlayerStore.set (store : PlayerStore) (names : List ℕ)
    (status : PlayerStatus) (now now_ns : ℕ) : PlayerStore :=
  store.map fun e =>
    if e.1.name ∈ names then
      ({ e.1 with last_played := now, last_played_ns := now_ns }, status)
    else e

theorem PlayerStore.length_set (store : PlayerStore) (names : List ℕ)
    (status : PlayerStatus) (now now_ns : ℕ) :
    (PlayerStore.set store names status now now_ns).length = store.length :=
  List.length_map _ _

/-- C6 (amended): `PlayerStore.set(players, status)` moves each given player
to `status` and stamps `last_played`/`last_played_ns` with the current time
on **every** call — including `set(players, IN_GAME)` — while entries for
players not in the list are untouched. -/
theorem playerStore_set_stamps_always (store : PlayerStore) (names : List ℕ)
    (status : PlayerStatus) (now now_ns : ℕ) (i : ℕ) (hi : i < store.length) :
    List.get (PlayerStore.set store names status now now_ns)
        ⟨i, (PlayerStore.length_set store names status now now_ns).symm ▸ hi⟩
      = if (List.get store ⟨i, hi⟩).1.name ∈ names
        then ({ (List.get store ⟨i, hi⟩).1 with last_played := now, last_played_ns := now_ns }, status)
        else List.get store ⟨i, hi⟩ := by
  simp [PlayerStore.set, List.get_eq_getElem]

/-- Witness for the amended C6 on a one-entry store moved to IN_GAME. -/
theorem playerStore_set_stamps_always_witness :
    0 < ([(⟨0, 100, 5, 5, 100, false⟩, PlayerStatus.WAITING)] : PlayerStore).length ∧
    List.get (PlayerStore.set [(⟨0, 100, 5, 5, 100, false⟩, PlayerStatus.WAITING)] [0]
          PlayerStatus.IN_GAME 7 9) ⟨0, by decide⟩
      = if ((List.get ([(⟨0, 100, 5, 5, 100, false⟩, PlayerStatus.WAITING)] : PlayerStore)
            ⟨0, by decide⟩).1.name ∈ [0])
        then ({ (List.get ([(⟨0, 100, 5, 5, 100, false⟩, PlayerStatus.WAITING)] : PlayerStore) ⟨0, by decide⟩).1 with last_played := 7, last_played_ns := 9 }, PlayerStatus.IN_GAME)
        else List.get ([(⟨0, 100, 5, 5, 100, false⟩, PlayerStatus.WAITING)] : PlayerStore)
            ⟨0, by decide⟩ :=
  ⟨by decide,
    playerStore_set_stamps_always [(⟨0, 100, 5, 5, 100, false⟩, PlayerStatus.WAITING)]
      [0] PlayerStatus.IN_GAME 7 9 0 (by decide)⟩

/-- C6 counterexample: moving a waiting player with `last_played = 5` to
IN_GAME at time 7 rewrites its `last_played` to 7, so `set(players, IN_GAME)`
does **not** leave `lastPlayedAt` unchanged. -/
theorem playerStore_set_in_game_changes_timestamp :
    PlayerStore.set [(⟨0, 100, 5, 5, 100, false⟩, PlayerStatus.WAITING)] [0]
        PlayerStatus.IN_GAME 7 9
      = [(⟨0, 100, 7, 9, 100, false⟩, PlayerStatus.IN_GAME)] ∧ (7 : ℕ) ≠ 5 := by
  constructor
  · rfl
  · decide

/-! ## Team formation (`MatchMakerServer.find_players`) -/

/-- Python list slicing `l[:k]` where `k` may be negative (a negative stop
counts from the end, clamped at 0). -/
def pyTake {α : Type} (k : ℤ) (l : List α) : List α :=
  if 0 ≤ k then l.take k.toNat else l.take (l.length - (-k).toNat)

/-- One striped extraction step of `find_players`: Python's
`team = pending_players[::s]` (indices `0, s, 2s, …`) paired with the pool
left after `pending_players.remove(player)` for each taken player — i.e. the
elements at the other indices, in order.  Requires `s ≥ 1` (in the code
`s = num_teams - i ≥ 1`). -/
def strideSplit {α : Type} (s : ℕ) : List α → List α × List α
  | [] => ([], [])
  | a :: rest =>
    let split := strideSplit s (rest.drop (s - 1))
    (a :: split.1, rest.take (s - 1) ++ split.2)
  termination_by l => l.length
  decreasing_by
    simp only [List.length_drop, List.length_cons]
    omega

/-- The team-building loop of `find_players`, counting down the stride:
`for i in range(num_teams): teams.append(pending[::num_teams - i]); remove`. -/
def buildTeams {α : Type} : ℕ → List α → List (List α)
  | 0, _ => []
  | k + 1, pool =>
    let split := strideSplit (k + 1) pool
    split.1 :: buildTeams k split.2

/-- `MatchMakerServer.find_players(num_per_teams, num_teams)` from
`server.py`.  `Except.error` models the `IndexError` of `pop(0)` on an empty
list (reachable only when `num_per_teams * num_teams = 0` and nobody waits);
`.ok none` is the Python `None` (not enough WAITING players).  The three
`list.sort` calls are Python's stable sort (mergeSort). -/
def find_players (waiting : List Player) (num_per_teams num_teams : ℕ) :
    Except Unit (Option (List (List Player))) :=
  if (waiting.mergeSort fun a b => a.last_played ≤ b.last_played).length
      < num_per_teams * num_teams then Except.ok none
  else
    match waiting.mergeSort fun a b => a.last_played ≤ b.last_played with
    | [] => Except.error ()
    | first :: rest =>
      Except.ok (some (buildTeams num_teams
        ((first :: pyTake ((num_per_teams * num_teams : ℤ) - 1)
            (rest.mergeSort fun a b => |a.elo - first.elo| ≤ |b.elo - first.elo|)).mergeSort
          fun a b => a.elo ≤ b.elo)))

/-- The per-team strength computation of `Game.compute_score`: the list of
`true_rating` (nudge enabled) or `elo` values, `avg = sum(vals)/len(vals)` —
a `ZeroDivisionError`, modelled as `none`, when the roster is empty — then
`avg + avg * god_boost * nb_god`. -/
def teamStrength (nudgeEnabled : Bool) (god_boost : ℚ) (players : List Player) :
    Option ℚ :=
  let vals := if nudgeEnabled then players.map fun p => (p.true_rating : ℚ)
              else players.map Player.elo
  if vals.length = 0 then none
  else
    let avg := vals.sum / vals.length
    let nb_god := (players.filter fun p => p.god).length
    some (avg + avg * god_boost * nb_god)

/-- `MatchMakerServer.try_create_game` effect on the player store: run
`find_players` on the WAITING players; on `None` return unchanged, else mark
every player of the formed teams IN_GAME via `PlayerStore.set` (which also
stamps their timestamps) and hand the teams to a new `Game`. -/
def try_create_game (store : PlayerStore) (num_per_teams num_teams : ℕ)
    (now now_ns : ℕ) : Except Unit (PlayerStore × Option (List (List Player))) :=
  match find_players (PlayerStore.get store .WAITING) num_per_teams num_teams with
  | .error e => .error e
  | .ok none => .ok (store, none)
  | .ok (some teams) =>
    .ok (PlayerStore.set store ((teams.flatten).map Player.name) .IN_GAME now now_ns,
      some teams)

/-- C8: when fewer than `teamSize * teamNumber` players are WAITING,
`find_players` returns `None` and `try_create_game` leaves the player store
(statuses, timestamps, every player field) completely unchanged. -/
theorem try_create_game_noop_when_insufficient (store : PlayerStore)
    (T N now now_ns : ℕ)
    (hlen : (PlayerStore.get store .WAITING).length < T * N) :
    find_players (PlayerStore.get store .WAITING) T N = .ok none ∧
    try_create_game store T N now now_ns = .ok (store, none) := by
  have hfp : find_players (PlayerStore.get store .WAITING) T N = .ok none := by
    simp [find_players, List.length_mergeSort, hlen]
  exact ⟨hfp, by rw [try_create_game, hfp]⟩

/-- Witness for C8: one WAITING player, `teamSize = teamNumber = 2`. -/
theorem try_create_game_noop_when_insufficient_witness :
    (PlayerStore.get [(⟨0, 100, 5, 5, 100, false⟩, PlayerStatus.WAITING)]
        .WAITING).length < 2 * 2 ∧
    (find_players (PlayerStore.get [(⟨0, 100, 5, 5, 100, false⟩, PlayerStatus.WAITING)]
        .WAITING) 2 2 = .ok none ∧
     try_create_game [(⟨0, 100, 5, 5, 100, false⟩, PlayerStatus.WAITING)] 2 2 7 9
        = .ok ([(⟨0, 100, 5, 5, 100, false⟩, PlayerStatus.WAITING)], none)) :=
  ⟨by decide,
    try_create_game_noop_when_insufficient
      [(⟨0, 100, 5, 5, 100, false⟩, PlayerStatus.WAITING)] 2 2 7 9 (by decide)⟩

open scoped List

theorem strideSplit_nil {α : Type} (s : ℕ) : strideSplit s ([] : List α) = ([], []) := by
  rw [strideSplit]

theorem strideSplit_cons {α : Type} (s : ℕ) (a : α) (rest : List α) :
    strideSplit s (a :: rest)
      = (a :: (strideSplit s (rest.drop (s - 1))).1,
         rest.take (s - 1) ++ (strideSplit s (rest.drop (s - 1))).2) := by
  rw [strideSplit]

theorem strideSplit_perm_aux {α : Type} (s n : ℕ) :
    ∀ l : List α, l.length ≤ n →
      (strideSplit s l).1 ++ (strideSplit s l).2 ~ l := by
  induction n with
  | zero =>
    intro l hl
    have hnil : l = [] := List.length_eq_zero.mp (Nat.le_zero.mp hl)
    subst hnil
    simp [strideSplit_nil]
  | succ n ih =>
    intro l hl
    rcases l with _ | ⟨a, rest⟩
    · simp [strideSplit_nil]
    · rw [strideSplit_cons]
      have hlen : (rest.drop (s - 1)).length ≤ n := by
        simp only [List.length_drop]
        simp only [List.length_cons] at hl
        omega
      have hrec := ih (rest.drop (s - 1)) hlen
      simp only [List.cons_append]
      refine List.Perm.cons a ?_
      calc (strideSplit s (rest.drop (s - 1))).1
            ++ (rest.take (s - 1) ++ (strideSplit s (rest.drop (s - 1))).2)
          ~ rest.take (s - 1) ++ ((strideSplit s (rest.drop (s - 1))).1
            ++ (strideSplit s (rest.drop (s - 1))).2) :=
            List.perm_append_comm_assoc _ _ _
        _ ~ rest.take (s - 1) ++ rest.drop (s - 1) :=
            List.Perm.append_left _ hrec
        _ = rest := List.take_append_drop _ _

theorem strideSplit_perm {α : Type} (s : ℕ) (l : List α) :
    (strideSplit s l).1 ++ (strideSplit s l).2 ~ l :=
  strideSplit_perm_aux s l.length l le_rfl

theorem strideSplit_length {α : Type} (k : ℕ) :
    ∀ (m : ℕ) (l : List α), l.length = m * (k + 1) →
      (strideSplit (k + 1) l).1.length = m ∧
      (strideSplit (k + 1) l).2.length = m * k := by
  intro m
  induction m with
  | zero =>
    intro l hl
    have hnil : l = [] := List.length_eq_zero.mp (by omega)
    subst hnil
    simp [strideSplit_nil]
  | succ m ih =>
    intro l hl
    rcases l with _ | ⟨a, rest⟩
    · exfalso
      have : 0 < (m + 1) * (k + 1) := Nat.mul_pos (Nat.succ_pos m) (Nat.succ_pos k)
      simp only [List.length_nil] at hl
      omega
    · rw [strideSplit_cons]
      simp only [Nat.add_sub_cancel]
      have hrest : rest.length = m * (k + 1) + k := by
        simp only [List.length_cons] at hl
        have hexp : (m + 1) * (k + 1) = m * (k + 1) + k + 1 := by ring
        omega
      have hdrop : (rest.drop k).length = m * (k + 1) := by
        simp only [List.length_drop]
        omega
      obtain ⟨h1, h2⟩ := ih (rest.drop k) hdrop
      constructor
      · simp [h1]
      · simp only [List.length_append, List.length_take, h2, hrest]
        have hmin : min k (m * (k + 1) + k) = k := by omega
        rw [hmin]
        ring

theorem buildTeams_spec {α : Type} :
    ∀ (N T : ℕ) (pool : List α), pool.length = T * N →
      (buildTeams N pool).length = N ∧
      (∀ team ∈ buildTeams N pool, team.length = T) ∧
      (buildTeams N pool).flatten ~ pool := by
  intro N
  induction N with
  | zero =>
    intro T pool h
    have hnil : pool = [] := List.length_eq_zero.mp (by omega)
    subst hnil
    simp [buildTeams]
  | succ N ih =>
    intro T pool h
    have hsplit := strideSplit_length N T pool (by rw [h])
    obtain ⟨hS1, hS2⟩ := hsplit
    obtain ⟨ihl, ihall, ihperm⟩ :=
      ih T (strideSplit (N + 1) pool).2 (by rw [hS2])
    refine ⟨by simp [buildTeams, ihl], ?_, ?_⟩
    · intro team hteam
      rw [buildTeams] at hteam
      rcases List.mem_cons.mp hteam with heq | hmem
      · rw [heq]
        exact hS1
      · exact ihall team hmem
    · rw [buildTeams]
      calc ((strideSplit (N + 1) pool).1 :: buildTeams N (strideSplit (N + 1) pool).2).flatten
          = (strideSplit (N + 1) pool).1 ++ (buildTeams N (strideSplit (N + 1) pool).2).flatten := by
            simp
        _ ~ (strideSplit (N + 1) pool).1 ++ (strideSplit (N + 1) pool).2 :=
            List.Perm.append_left _ ihperm
        _ ~ pool := strideSplit_perm (N + 1) pool

theorem pyTake_sublist {α : Type} (k : ℤ) (l : List α) : (pyTake k l).Sublist l := by
  rw [pyTake]
  split_ifs <;> exact List.take_sublist _ _

theorem find_players_eq (waiting : List Player) (T N : ℕ)
    (hnotlt : ¬ ((waiting.mergeSort fun a b => a.last_played ≤ b.last_played).length
      < T * N))
    (first : Player) (rest : List Player)
    (hfr : waiting.mergeSort (fun a b => a.last_played ≤ b.last_played)
      = first :: rest) :
    find_players waiting T N = Except.ok (some (buildTeams N
      ((first :: pyTake ((T * N : ℤ) - 1)
          (rest.mergeSort fun a b => |a.elo - first.elo| ≤ |b.elo - first.elo|)).mergeSort
        fun a b => a.elo ≤ b.elo))) := by
  unfold find_players
  rw [if_neg hnotlt, hfr]

theorem find_players_ok (waiting : List Player) (T N : ℕ) (hT : 0 < T) (hN : 0 < N)
    (hlen : T * N ≤ waiting.length) (hnd : waiting.Nodup) :
    ∃ teams, find_players waiting T N = Except.ok (some teams) ∧
      teams.length = N ∧ (∀ team ∈ teams, team.length = T) ∧
      teams.flatten.Nodup ∧
      ∃ anchor, (∃ team ∈ teams, anchor ∈ team) ∧ anchor ∈ waiting ∧
        ∀ q ∈ waiting, anchor.last_played ≤ q.last_played := by
  have hTN : 0 < T * N := Nat.mul_pos hT hN
  have hslen : (waiting.mergeSort fun a b => a.last_played ≤ b.last_played).length
      = waiting.length := List.length_mergeSort _
  have hnotlt : ¬ ((waiting.mergeSort fun a b => a.last_played ≤ b.last_played).length
      < T * N) := by omega
  have hne : waiting.mergeSort (fun a b => a.last_played ≤ b.last_played) ≠ [] := by
    apply List.ne_nil_of_length_pos
    omega
  obtain ⟨first, rest, hfr⟩ := List.exists_cons_of_ne_nil hne
  have hrestlen : rest.length = waiting.length - 1 := by
    have := hslen
    rw [hfr] at this
    simp only [List.length_cons] at this
    omega
  -- the working pool has exactly T * N players
  have hpendlen :
      ((first :: pyTake ((T * N : ℤ) - 1)
          (rest.mergeSort fun a b => |a.elo - first.elo| ≤ |b.elo - first.elo|)).mergeSort
        fun a b => a.elo ≤ b.elo).length = T * N := by
    rw [List.length_mergeSort, List.length_cons, pyTake,
      if_pos (by omega : (0 : ℤ) ≤ (T * N : ℤ) - 1)]
    rw [List.length_take, List.length_mergeSort]
    have : ((T * N : ℤ) - 1).toNat = T * N - 1 := by omega
    rw [this]
    omega
  obtain ⟨hteamsLen, hteamsAll, hflatPerm⟩ := buildTeams_spec N T _ hpendlen
  refine ⟨_, find_players_eq waiting T N hnotlt first rest hfr, hteamsLen, hteamsAll,
    ?_, ?_⟩
  · -- no player in two teams: the flattened teams are a permutation of the
    -- Nodup working pool
    apply hflatPerm.nodup_iff.mpr
    apply (List.mergeSort_perm _ _).nodup_iff.mpr
    have hsortnd : (waiting.mergeSort fun a b => a.last_played ≤ b.last_played).Nodup :=
      (List.mergeSort_perm waiting _).nodup_iff.mpr hnd
    rw [hfr] at hsortnd
    obtain ⟨hfirst_nin, hrestnd⟩ := List.nodup_cons.mp hsortnd
    refine List.nodup_cons.mpr ⟨?_, ?_⟩
    · intro hmem
      apply hfirst_nin
      have hsub := (pyTake_sublist ((T * N : ℤ) - 1)
        (rest.mergeSort fun a b => |a.elo - first.elo| ≤ |b.elo - first.elo|)).subset hmem
      exact (List.mergeSort_perm rest _).mem_iff.mp hsub
    · exact (pyTake_sublist _ _).nodup
        ((List.mergeSort_perm rest _).nodup_iff.mpr hrestnd)
  · -- the anchor: head of the wait-time sort
    refine ⟨first, ?_, ?_, ?_⟩
    · have hmem_pool : first ∈
          ((first :: pyTake ((T * N : ℤ) - 1)
              (rest.mergeSort fun a b => |a.elo - first.elo| ≤ |b.elo - first.elo|)).mergeSort
            fun a b => a.elo ≤ b.elo) :=
        (List.mergeSort_perm _ _).mem_iff.mpr (List.mem_cons_self _ _)
      have hmem_flat := hflatPerm.mem_iff.mpr hmem_pool
      obtain ⟨team, hteam, hfirst⟩ := List.mem_flatten.mp hmem_flat
      exact ⟨team, hteam, hfirst⟩
    · have : first ∈ waiting.mergeSort fun a b => a.last_played ≤ b.last_played := by
        rw [hfr]
        exact List.mem_cons_self _ _
      exact List.mem_mergeSort.mp this
    · intro q hq
      have hsorted : (waiting.mergeSort fun a b => a.last_played ≤ b.last_played).Pairwise
          (fun a b => decide (a.last_played ≤ b.last_played) = true) := by
        apply List.sorted_mergeSort
        · intro a b c hab hbc
          simp only [decide_eq_true_eq] at *
          omega
        · intro a b
          simp only [Bool.or_eq_true, decide_eq_true_eq]
          omega
      rw [hfr] at hsorted
      obtain ⟨hhead, _⟩ := List.pairwise_cons.mp hsorted
      have hq' : q ∈ waiting.mergeSort fun a b => a.last_played ≤ b.last_played :=
        List.mem_mergeSort.mpr hq
      rw [hfr] at hq'
      rcases List.mem_cons.mp hq' with rfl | hq''
      · exact le_refl _
      · exact of_decide_eq_true (hhead q hq'')

/-- C3: whenever at least `teamSize * teamNumber` players are WAITING (and
the configured sizes are positive), `find_players` returns exactly
`teamNumber` teams of exactly `teamSize` players each, with no player in two
teams, and a longest-waiting WAITING player (minimal `lastPlayedAt`) is a
member of some returned team. -/
theorem find_players_spec (waiting : List Player) (T N : ℕ) (hT : 0 < T)
    (hN : 0 < N) (hlen : T * N ≤ waiting.length) (hnd : waiting.Nodup) :
    ∃ teams, find_players waiting T N = Except.ok (some teams) ∧
      teams.length = N ∧ (∀ team ∈ teams, team.length = T) ∧
      teams.flatten.Nodup ∧
      ∃ anchor, (∃ team ∈ teams, anchor ∈ team) ∧ anchor ∈ waiting ∧
        ∀ q ∈ waiting, anchor.last_played ≤ q.last_played :=
  find_players_ok waiting T N hT hN hlen hnd

/-- Witness for C3 at the spec's Scenario B pool (4 players, elos
1000/1010/1020/1030, anchor the longest waiting, `teamSize = teamNumber = 2`). -/
theorem find_players_spec_witness :
    0 < 2 ∧ 0 < 2 ∧
    2 * 2 ≤ ([⟨0, 1000, 0, 0, 100, false⟩, ⟨1, 1010, 1, 1, 100, false⟩,
      ⟨2, 1020, 2, 2, 100, false⟩, ⟨3, 1030, 3, 3, 100, false⟩] : List Player).length ∧
    ([⟨0, 1000, 0, 0, 100, false⟩, ⟨1, 1010, 1, 1, 100, false⟩,
      ⟨2, 1020, 2, 2, 100, false⟩, ⟨3, 1030, 3, 3, 100, false⟩] : List Player).Nodup ∧
    (∃ teams, find_players [⟨0, 1000, 0, 0, 100, false⟩, ⟨1, 1010, 1, 1, 100, false⟩,
        ⟨2, 1020, 2, 2, 100, false⟩, ⟨3, 1030, 3, 3, 100, false⟩] 2 2
        = Except.ok (some teams) ∧
      teams.length = 2 ∧ (∀ team ∈ teams, team.length = 2) ∧
      teams.flatten.Nodup ∧
      ∃ anchor, (∃ team ∈ teams, anchor ∈ team) ∧
        anchor ∈ ([⟨0, 1000, 0, 0, 100, false⟩, ⟨1, 1010, 1, 1, 100, false⟩,
          ⟨2, 1020, 2, 2, 100, false⟩, ⟨3, 1030, 3, 3, 100, false⟩] : List Player) ∧
        ∀ q ∈ ([⟨0, 1000, 0, 0, 100, false⟩, ⟨1, 1010, 1, 1, 100, false⟩,
          ⟨2, 1020, 2, 2, 100, false⟩, ⟨3, 1030, 3, 3, 100, false⟩] : List Player),
          anchor.last_played ≤ q.last_played) :=
  ⟨by decide, by decide, by decide, by decide,
    find_players_spec [⟨0, 1000, 0, 0, 100, false⟩, ⟨1, 1010, 1, 1, 100, false⟩,
        ⟨2, 1020, 2, 2, 100, false⟩, ⟨3, 1030, 3, 3, 100, false⟩] 2 2
      (by decide) (by decide) (by decide) (by decide)⟩

/-- C5 counterexample: the server constructor performs no validation, so a
zero `teamSize` is accepted, and with `teamSize = 0`, `teamNumber = 2` and a
single WAITING player the formed game contains an **empty** roster whose
strength average in `compute_score` is a division by zero (`none`). -/
theorem zero_team_size_reaches_division_by_zero :
    find_players [⟨0, 100, 5, 5, 100, false⟩] 0 2
      = Except.ok (some [[⟨0, 100, 5, 5, 100, false⟩], []]) ∧
    teamStrength false (1 / 2) [] = none := by
  constructor
  · unfold find_players
    norm_num [List.mergeSort_singleton, List.mergeSort_nil, pyTake, buildTeams,
      strideSplit_cons, strideSplit_nil]
  · rfl

/-- C5 (amended): the constructor does **not** validate `teamSize` /
`teamNumber` (a zero value reaches `compute_score` and divides by zero, see
the counterexample); however, under a positive configuration every roster
formed by `find_players` is nonempty, so the strength averaging of
`compute_score` never divides by zero on games formed that tick. -/
theorem find_players_teams_strength_defined (waiting : List Player) (T N : ℕ)
    (hT : 0 < T) (hN : 0 < N) (hlen : T * N ≤ waiting.length) (hnd : waiting.Nodup)
    (nudgeEnabled : Bool) (god_boost : ℚ) :
    ∃ teams, find_players waiting T N = Except.ok (some teams) ∧
      ∀ team ∈ teams, teamStrength nudgeEnabled god_boost team ≠ none := by
  obtain ⟨teams, heq, _, hall, _, _⟩ := find_players_ok waiting T N hT hN hlen hnd
  refine ⟨teams, heq, ?_⟩
  intro team hteam
  have hTlen : team.length = T := hall team hteam
  cases nudgeEnabled <;>
    simp [teamStrength, hTlen, Nat.pos_iff_ne_zero.mp hT]

/-- Witness for the amended C5: two 1-player teams, strengths defined. -/
theorem find_players_teams_strength_defined_witness :
    0 < 1 ∧ 0 < 2 ∧
    1 * 2 ≤ ([⟨0, 1000, 0, 0, 100, false⟩, ⟨1, 1010, 1, 1, 100, false⟩] : List Player).length ∧
    ([⟨0, 1000, 0, 0, 100, false⟩, ⟨1, 1010, 1, 1, 100, false⟩] : List Player).Nodup ∧
    (∃ teams, find_players [⟨0, 1000, 0, 0, 100, false⟩, ⟨1, 1010, 1, 1, 100, false⟩] 1 2
        = Except.ok (some teams) ∧
      ∀ team ∈ teams, teamStrength false (1 / 2) team ≠ none) :=
  ⟨by decide, by decide, by decide, by decide,
    find_players_teams_strength_defined
      [⟨0, 1000, 0, 0, 100, false⟩, ⟨1, 1010, 1, 1, 100, false⟩] 1 2
      (by decide) (by decide) (by decide) (by decide) false (1 / 2)⟩

/-! ## Outcome draw (`Game.compute_score`) -/

/-- The weighted without-replacement draw loop of `Game.compute_score`: one
`random.choices(list(teams_elo.keys()), weights, k=1)` pick per team in
`self.teams`, the picked team removed (`teams_elo.pop`) and appended to
`results`.  Randomness is abstracted as an `oracle` giving, per loop step,
the index of the picked remaining team; every weighted draw corresponds to
some oracle, so the theorems hold for all draws. -/
def drawTeams {α : Type} (oracle : ℕ → ℕ) : ℕ → List α → List α
  | 0, _ => []
  | _ + 1, [] => []
  | k + 1, a :: rest =>
    let i := oracle k % (a :: rest).length
    (a :: rest).get ⟨i, Nat.mod_lt _ (Nat.succ_pos _)⟩ ::
      drawTeams oracle k ((a :: rest).eraseIdx i)

/-- `for score, team in enumerate(results[::-1]): team.score = score`:
the (score, team) assignments of `Game.compute_score`. -/
def scoreAssignment {α : Type} (results : List α) : List (ℕ × α) :=
  results.reverse.enum

theorem get_cons_eraseIdx_perm {α : Type} (l : List α) (i : ℕ) (h : i < l.length) :
    (l.get ⟨i, h⟩ :: l.eraseIdx i).Perm l := by
  conv_rhs => rw [← List.take_append_drop i l]
  rw [List.eraseIdx_eq_take_drop_succ]
  have hdrop : l.get ⟨i, h⟩ :: l.drop (i + 1) = l.drop i := List.get_cons_drop l ⟨i, h⟩
  calc l.get ⟨i, h⟩ :: (l.take i ++ l.drop (i + 1))
      ~ l.take i ++ (l.get ⟨i, h⟩ :: l.drop (i + 1)) := List.perm_middle.symm
    _ = l.take i ++ l.drop i := by rw [hdrop]

theorem drawTeams_perm {α : Type} (oracle : ℕ → ℕ) :
    ∀ (k : ℕ) (l : List α), l.length = k → (drawTeams oracle k l).Perm l := by
  intro k
  induction k with
  | zero =>
    intro l h
    have hnil : l = [] := List.length_eq_zero.mp h
    subst hnil
    simp [drawTeams]
  | succ k ih =>
    intro l h
    rcases l with _ | ⟨a, rest⟩
    · simp at h
    · rw [drawTeams]
      have hi : oracle k % (a :: rest).length < (a :: rest).length :=
        Nat.mod_lt _ (Nat.succ_pos _)
      have hlen : ((a :: rest).eraseIdx (oracle k % (a :: rest).length)).length = k := by
        rw [List.length_eraseIdx_of_lt hi]
        simp only [List.length_cons] at h ⊢
        omega
      exact ((ih _ hlen).cons _).trans (get_cons_eraseIdx_perm _ _ hi)

/-- C4: after the `compute_score` draw, the assigned scores are exactly
`{0, …, teamNumber-1}`, each drawn team gets exactly one score (so all teams
hold distinct integers), and the team at draw position `j` receives score
`teamNumber - 1 - j`: the team drawn first gets the highest score
`teamNumber - 1` and the team drawn last gets `0` — for every draw oracle. -/
theorem compute_score_spec {α : Type} (oracle : ℕ → ℕ) (teams : List α)
    (hnd : teams.Nodup) :
    (drawTeams oracle teams.length teams).Perm teams ∧
    (scoreAssignment (drawTeams oracle teams.length teams)).map Prod.fst
      = List.range teams.length ∧
    (∀ t ∈ teams,
      ∃! s, (s, t) ∈ scoreAssignment (drawTeams oracle teams.length teams)) ∧
    ∀ (j : ℕ) (hj : j < (drawTeams oracle teams.length teams).length),
      (teams.length - 1 - j, (drawTeams oracle teams.length teams).get ⟨j, hj⟩)
        ∈ scoreAssignment (drawTeams oracle teams.length teams) := by
  have hperm : (drawTeams oracle teams.length teams).Perm teams :=
    drawTeams_perm oracle teams.length teams rfl
  have hlen : (drawTeams oracle teams.length teams).length = teams.length :=
    hperm.length_eq
  have hRnd : (drawTeams oracle teams.length teams).reverse.Nodup := by
    rw [List.nodup_reverse]
    exact hperm.nodup_iff.mpr hnd
  have hRlen : (drawTeams oracle teams.length teams).reverse.length = teams.length := by
    rw [List.length_reverse, hlen]
  refine ⟨hperm, ?_, ?_, ?_⟩
  · rw [scoreAssignment]
    calc ((drawTeams oracle teams.length teams).reverse.enum).map Prod.fst
        = List.range' 0 (drawTeams oracle teams.length teams).reverse.length :=
          List.enumFrom_map_fst 0 _
      _ = List.range (drawTeams oracle teams.length teams).reverse.length :=
          (List.range_eq_range' _).symm
      _ = List.range teams.length := by rw [hRlen]
  · intro t ht
    have htR : t ∈ (drawTeams oracle teams.length teams).reverse := by
      rw [List.mem_reverse]
      exact hperm.mem_iff.mpr ht
    obtain ⟨⟨s, hs⟩, hget⟩ := List.mem_iff_get.mp htR
    refine ⟨s, ?_, ?_⟩
    · rw [scoreAssignment]
      apply List.mk_mem_enum_iff_getElem?.mpr
      rw [List.getElem?_eq_some_iff]
      exact ⟨hs, hget⟩
    · intro s' hs'
      rw [scoreAssignment] at hs'
      have := List.mk_mem_enum_iff_getElem?.mp hs'
      rw [List.getElem?_eq_some_iff] at this
      obtain ⟨hs'lt, hget'⟩ := this
      have hinj := List.nodup_iff_injective_get.mp hRnd
      have hfin : (⟨s', hs'lt⟩ : Fin _) = ⟨s, hs⟩ := by
        apply hinj
        show (drawTeams oracle teams.length teams).reverse.get ⟨s', hs'lt⟩
          = (drawTeams oracle teams.length teams).reverse.get ⟨s, hs⟩
        rw [hget]
        exact hget'
      exact Fin.mk.inj_iff.mp hfin
  · intro j hj
    rw [scoreAssignment]
    apply List.mk_mem_enum_iff_getElem?.mpr
    have hmlt : teams.length - 1 - j < (drawTeams oracle teams.length teams).length := by
      omega
    rw [List.getElem?_reverse hmlt]
    have hidx : (drawTeams oracle teams.length teams).length - 1 - (teams.length - 1 - j)
        = j := by
      omega
    rw [hidx, List.getElem?_eq_some_iff]
    exact ⟨hj, rfl⟩

/-- Witness for C4 at three teams and the always-first oracle. -/
theorem compute_score_spec_witness :
    ([0, 1, 2] : List ℕ).Nodup ∧
    ((drawTeams (fun _ => 0) ([0, 1, 2] : List ℕ).length [0, 1, 2]).Perm [0, 1, 2] ∧
     (scoreAssignment (drawTeams (fun _ => 0) ([0, 1, 2] : List ℕ).length
        [0, 1, 2])).map Prod.fst = List.range ([0, 1, 2] : List ℕ).length ∧
     (∀ t ∈ ([0, 1, 2] : List ℕ),
       ∃! s, (s, t) ∈ scoreAssignment
         (drawTeams (fun _ => 0) ([0, 1, 2] : List ℕ).length [0, 1, 2])) ∧
     ∀ (j : ℕ) (hj : j < (drawTeams (fun _ => 0) ([0, 1, 2] : List ℕ).length
        [0, 1, 2]).length),
       (([0, 1, 2] : List ℕ).length - 1 - j,
         (drawTeams (fun _ => 0) ([0, 1, 2] : List ℕ).length [0, 1, 2]).get ⟨j, hj⟩)
         ∈ scoreAssignment (drawTeams (fun _ => 0) ([0, 1, 2] : List ℕ).length
            [0, 1, 2])) :=
  ⟨by decide, compute_score_spec (fun _ => 0) [0, 1, 2] (by decide)⟩

/-! ## Round scheduler termination (`MatchMakerServer.run`) -/

/-- Python truthiness of `self.max_round` in `run`
(`if self.max_round:`): falsy for `None` and for `0`. -/
def maxRoundEnabled : Option ℕ → Bool
  | none => false
  | some m => m ≠ 0

/-- The termination skeleton of `MatchMakerServer.run`: each tick yields some
number of newly completed games (the value of `finished_game` returned by
`handle_games`, here a prescribed sequence `ticks`); when `max_round` is
truthy, `round_finished` accumulates them and the loop breaks as soon as
`round_finished > max_round`.  Returns the final counter and whether the loop
broke within the prescribed ticks. -/
def runLoop (max_round : Option ℕ) : ℕ → List ℕ → ℕ × Bool
  | acc, [] => (acc, false)
  | acc, f :: rest =>
    if maxRoundEnabled max_round then
      if acc + f > max_round.getD 0 then (acc + f, true)
      else runLoop max_round (acc + f) rest
    else runLoop max_round acc rest

/-- C9: with `maxRound` configured (truthy), the scheduler's loop keeps
running exactly while the completed-game count is ≤ `maxRound`: if it breaks,
the count strictly exceeds `maxRound`; if it survives all ticks without
breaking, the count never exceeded `maxRound` (so it never stops on mere
equality); and it does break once the ticks carry the count past `maxRound`. -/
theorem runLoop_terminates_iff_exceeds (m : ℕ) (hm : maxRoundEnabled (some m) = true)
    (ticks : List ℕ) (acc : ℕ) (hacc : acc ≤ m) :
    ((runLoop (some m) acc ticks).2 = true → (runLoop (some m) acc ticks).1 > m) ∧
    ((runLoop (some m) acc ticks).2 = false → (runLoop (some m) acc ticks).1 ≤ m) ∧
    (m < acc + ticks.sum → (runLoop (some m) acc ticks).2 = true) := by
  induction ticks generalizing acc with
  | nil =>
    refine ⟨?_, ?_, ?_⟩ <;> simp [runLoop] <;> omega
  | cons f rest ih =>
    by_cases hbreak : acc + f > m
    · refine ⟨?_, ?_, ?_⟩ <;> (simp [runLoop, hm, hbreak]; try omega)
    · obtain ⟨ih1, ih2, ih3⟩ := ih (acc + f) (by omega)
      refine ⟨?_, ?_, ?_⟩ <;> simp only [runLoop, hm, if_true, Option.getD_some] <;>
        rw [if_neg hbreak]
      · exact ih1
      · exact ih2
      · intro hsum
        apply ih3
        simp only [List.sum_cons] at hsum
        omega

/-- Witness for C9 at `maxRound = 5` with ticks completing 2 games each:
the loop breaks at count 6. -/
theorem runLoop_terminates_iff_exceeds_witness :
    maxRoundEnabled (some 5) = true ∧ (0 : ℕ) ≤ 5 ∧
    (((runLoop (some 5) 0 [2, 2, 2]).2 = true → (runLoop (some 5) 0 [2, 2, 2]).1 > 5) ∧
     ((runLoop (some 5) 0 [2, 2, 2]).2 = false → (runLoop (some 5) 0 [2, 2, 2]).1 ≤ 5) ∧
     (5 < 0 + ([2, 2, 2] : List ℕ).sum → (runLoop (some 5) 0 [2, 2, 2]).2 = true)) :=
  ⟨by decide, by decide,
    runLoop_terminates_iff_exceeds 5 (by decide) [2, 2, 2] 0 (by decide)⟩
